import Mathlib

/-!
# Shallow embedding of `csp_to_kdm_reduction.py`

This file embeds the CSP → k·R-dimensional matching reduction:

* `CSPInstance`, `varPartition`, `CSPInstance.getPartition`, `bump`,
  `constraintCounts`, `mkCSP` embed the `CSPInstance` class, its round-robin
  partition dictionary and `ensure_R_degree_bounded` (together with the
  `ZeroDivisionError` raised by `len(variables) // k` when `k = 0`);
* `lineOf`, `gadgetVertices`, `gadgetEdges` embed the `GadgetGraph` class
  (`gadgetEdges` also models the `defaultdict(list)` lookup, which yields `[]`
  for a slope outside `[0, R)`);
* `MatchingInstance`, `MatchingInstance.addVertices`, `attributedKey`,
  `edgeOk`, `verifyProperties` embed the `MatchingInstance` class; the Python
  sets are modelled by lists read only through membership, the `partitions`
  dict by its insertion-ordered key list plus a member function, and the
  `print` diagnostics by a returned `List Diag`;
* `registrations`, `registerAll`, `listProd`, `assignEdges`,
  `constraintEdges`, `reduce_csp_to_matching` embed `reduce_csp_to_matching`;
  `listProd` is the order-faithful embedding of `itertools.product`.

Python raises `KeyError` on `gadget_graphs[v]` for a variable not in the
declared list and `IndexError` on `assignment[idx]` for an assignment shorter
than its constraint's variable list; the theorems below about constraint
expansion therefore carry the corresponding well-formedness hypotheses, under
which the total functions here agree with the Python code.
-/

/-- A gadget vertex: the Python tuple `(variable_name, x, y)`. -/
abbrev Vertex := String × ℕ × ℕ

/-- One affine line of a gadget: the inner loop of `GadgetGraph.create_edges`,
`[(variable_name, x, (a*x + b) % R) for x in range(R)]`. -/
def lineOf (R : ℕ) (name : String) (a b : ℕ) : List Vertex :=
  (List.range R).map (fun x => (name, x, (a * x + b) % R))

/-- The gadget's vertex list `[(variable_name, x, y) for x, y in
product(range(R), repeat=2)]`, in the same (lexicographic) order. -/
def gadgetVertices (R : ℕ) (name : String) : List Vertex :=
  (List.range R).flatMap (fun x => (List.range R).map (fun y => (name, x, y)))

/-- The gadget's `edges` dictionary: `create_edges` populates keys `0..R-1`
with the list of lines over all offsets `b`; any other lookup of the
`defaultdict(list)` yields the empty list. -/
def gadgetEdges (R : ℕ) (name : String) (a : ℕ) : List (List Vertex) :=
  if a < R then (List.range R).map (fun b => lineOf R name a b) else []

/-- The data carried by a constructed `CSPInstance`: alphabet size `R`,
partition count `k`, the declared variable list and the constraint list.
A constraint is a pair of the ordered variable-name list and the list of
allowed assignments (each a list of alphabet symbols). -/
structure CSPInstance where
  R : ℕ
  k : ℕ
  /-- the Python `variables` list (renamed: `variables` is reserved here) -/
  vars : List String
  constraints : List (List String × List (List ℕ))

/-- The `variable_partitions` dictionary: built by
`for idx, v in enumerate(variables): self.variable_partitions[v] = idx % k`.
A later occurrence of the same name overwrites an earlier one, so the lookup
searches the enumerated list from the end. Returns `none` for a name never
assigned (where Python's `get_partition` would raise `KeyError`). -/
def varPartition (vars : List String) (k : ℕ) (v : String) : Option ℕ :=
  (((vars.enum.map (fun p => (p.2, p.1 % k))).reverse).find?
    (fun q => decide (q.1 = v))).map (fun q => q.2)

/-- Embeds `CSPInstance.get_partition`; only ever applied to declared variables,
where `varPartition` is `some`. -/
def CSPInstance.getPartition (csp : CSPInstance) (v : String) : ℕ :=
  (varPartition csp.vars csp.k v).getD 0

/-- One step of building `variable_constraint_count`: the Python
`variable_constraint_count[v] += 1` on a `defaultdict(int)`, keeping dict
insertion order. -/
def bump (counts : List (String × ℕ)) (v : String) : List (String × ℕ) :=
  if counts.any (fun p => decide (p.1 = v)) then
    counts.map (fun p => if p.1 = v then (p.1, p.2 + 1) else p)
  else counts ++ [(v, 1)]

/-- The full `variable_constraint_count` dictionary of
`ensure_R_degree_bounded`, as an insertion-ordered association list. -/
def constraintCounts (constraints : List (List String × List (List ℕ))) :
    List (String × ℕ) :=
  constraints.foldl (fun counts c => c.1.foldl bump counts) []

/-- The two exceptions `CSPInstance.__init__` can raise: the
`ZeroDivisionError` from `partition_size = len(variables) // k` when `k = 0`,
and the `ValueError` of `ensure_R_degree_bounded`, which carries the offending
variable and its constraint-occurrence count. -/
inductive ConstructError where
  | zeroDivision : ConstructError
  | degreeBound (v : String) (count : ℕ) : ConstructError
deriving DecidableEq

/-- Embeds `CSPInstance.__init__`: `partition_size = len(variables) // k` raises
`ZeroDivisionError` first when `k = 0`; then `ensure_R_degree_bounded` raises
`ValueError` at the first dictionary entry (in insertion order) whose count
exceeds `R`; otherwise the instance is constructed. -/
def mkCSP (R k : ℕ) (vars : List String)
    (cs : List (List String × List (List ℕ))) : Except ConstructError CSPInstance :=
  if k = 0 then Except.error ConstructError.zeroDivision
  else
    match (constraintCounts cs).find? (fun p => decide (R < p.2)) with
    | some p => Except.error (ConstructError.degreeBound p.1 p.2)
    | none => Except.ok ⟨R, k, vars, cs⟩

/-- Number of constraints whose variable list mentions `v`: the quantity the
degree-bound requirement is about. -/
def constraintsMentioning (cs : List (List String × List (List ℕ)))
    (v : String) : ℕ :=
  (cs.filter (fun c => decide (v ∈ c.1))).length

/-- Number of occurrences of `v` across the constraints' variable lists — a
variable listed twice in one constraint counts twice. This, not
`constraintsMentioning`, is the quantity `variable_constraint_count`
accumulates (one increment per list occurrence). -/
def occurrenceCount (cs : List (List String × List (List ℕ)))
    (v : String) : ℕ :=
  (cs.flatMap (fun c => c.1)).count v

/-- The matching instance under construction. `vertices` and each
`partitionMembers q` model Python sets: they are read only through `∈`.
`partitionKeys` is the key list of the `partitions` `defaultdict(set)` in
insertion order (its length is Python's `len(self.partitions)`). -/
structure MatchingInstance where
  k : ℕ
  R : ℕ
  vertices : List Vertex
  edges : List (List Vertex)
  partitionKeys : List ℕ
  partitionMembers : ℕ → List Vertex

/-- Embeds `MatchingInstance.__init__`. -/
def MatchingInstance.empty (k R : ℕ) : MatchingInstance :=
  ⟨k, R, [], [], [], fun _ => []⟩

/-- Embeds `MatchingInstance.add_vertices`: each vertex goes into the overall vertex
set and into partition `p`'s member set. When `vs` is empty the Python loop
body never runs, so the `defaultdict` key `p` is not created. -/
def MatchingInstance.addVertices (M : MatchingInstance) (vs : List Vertex)
    (p : ℕ) : MatchingInstance :=
  if vs.isEmpty then M
  else
    { M with
      vertices := M.vertices ++ vs,
      partitionKeys :=
        if p ∈ M.partitionKeys then M.partitionKeys else M.partitionKeys ++ [p],
      partitionMembers := fun q =>
        if q = p then M.partitionMembers q ++ vs else M.partitionMembers q }

/-- The vertex-registration phase of `reduce_csp_to_matching`, linearised:
for each variable `v` (outer loop) and each slope `a in range(R)` (inner
loop), the pair of `vertices_in_partition` (the union of `v`'s `a`-class
lines, a set read through membership) and `partition_base + a`. -/
def registrations (csp : CSPInstance) : List (List Vertex × ℕ) :=
  csp.vars.flatMap (fun v =>
    (List.range csp.R).map (fun a =>
      ((gadgetEdges csp.R v a).flatMap id,
        csp.getPartition v * csp.R + a)))

/-- The matching instance after the registration phase: the successive
`add_vertices` calls folded over `registrations`. -/
def registerAll (csp : CSPInstance) : MatchingInstance :=
  (registrations csp).foldl (fun M r => M.addVertices r.1 r.2)
    (MatchingInstance.empty csp.k csp.R)

/-- Embeds `itertools.product` on a list of lists, in the same order: the rightmost
factor varies fastest. -/
def listProd {α : Type} : List (List α) → List (List α)
  | [] => [[]]
  | l :: ls => l.flatMap (fun x => (listProd ls).map (fun t => x :: t))

/-- The hyperedges contributed by one allowed assignment of one constraint:
for each constraint variable (paired positionally with its symbol), the lines
of that variable's chosen slope class; every combination is concatenated into
one `combined_edge`. -/
def assignEdges (R : ℕ) (vars : List String) (asg : List ℕ) :
    List (List Vertex) :=
  (listProd ((vars.zip asg).map (fun p => gadgetEdges R p.1 p.2))).map
    (fun combo => combo.flatMap id)

/-- All hyperedges contributed by one constraint, over its allowed
assignments in order. -/
def constraintEdges (R : ℕ) (c : List String × List (List ℕ)) :
    List (List Vertex) :=
  c.2.flatMap (fun asg => assignEdges R c.1 asg)

/-- Embeds `reduce_csp_to_matching`: register every variable's gadget vertices, then
append (`add_edge`) the combined hyperedges of every constraint in order. -/
def reduce_csp_to_matching (csp : CSPInstance) : MatchingInstance :=
  { registerAll csp with
    edges := csp.constraints.flatMap (fun c => constraintEdges csp.R c) }

/-- The diagnostics `verify_properties` prints: the partition-count message
with the expected (`k*R`) and found (`len(self.partitions)`) counts, the
non-conforming hyperedge message carrying the edge, and the final success
message. -/
inductive Diag where
  | partitionCount (expected found : ℕ) : Diag
  | badEdge (e : List Vertex) : Diag
  | allPassed : Diag
deriving DecidableEq

/-- The inner attribution scan of `verify_properties`: the first partition (in
dict insertion order) whose member set contains the vertex, if any. -/
def attributedKey (M : MatchingInstance) (u : Vertex) : Option ℕ :=
  M.partitionKeys.find? (fun q => decide (u ∈ M.partitionMembers q))

/-- The per-edge check of `verify_properties`: the set `partitions_in_edge`
of attributed partition indices must be as large as the edge. -/
def edgeOk (M : MatchingInstance) (e : List Vertex) : Bool :=
  decide (((e.filterMap (fun u => attributedKey M u)).dedup).length = e.length)

/-- Embeds `MatchingInstance.verify_properties`: the returned boolean together with
the printed diagnostics. A partition-count mismatch reports and returns
`False` before any edge is examined; otherwise the first failing edge (if
any) reports and returns `False`; otherwise the success line is printed and
`True` returned. -/
def verifyProperties (M : MatchingInstance) : Bool × List Diag :=
  if M.partitionKeys.length ≠ M.k * M.R then
    (false, [Diag.partitionCount (M.k * M.R) M.partitionKeys.length])
  else
    match M.edges.find? (fun e => ! edgeOk M e) with
    | some e => (false, [Diag.badEdge e])
    | none => (true, [Diag.allPassed])

/-! ## Gadget lemmas -/

theorem lineOf_length (R : ℕ) (name : String) (a b : ℕ) :
    (lineOf R name a b).length = R := by
  simp [lineOf]

theorem mem_lineOf {R : ℕ} {name : String} {a b : ℕ} {u : Vertex} :
    u ∈ lineOf R name a b ↔ ∃ x < R, u = (name, x, (a * x + b) % R) := by
  simp [lineOf, List.mem_map, List.mem_range, eq_comm]

theorem mem_gadgetVertices {R : ℕ} {name : String} {u : Vertex} :
    u ∈ gadgetVertices R name ↔ ∃ x < R, ∃ y < R, u = (name, x, y) := by
  simp [gadgetVertices, List.mem_flatMap, List.mem_map, List.mem_range, eq_comm]

theorem gadgetVertices_length (R : ℕ) (name : String) :
    (gadgetVertices R name).length = R * R := by
  simp only [gadgetVertices, List.length_flatMap]
  have h : (List.length ∘ fun x : ℕ =>
      List.map (fun y => ((name, x, y) : Vertex)) (List.range R)) = fun _ => R :=
    funext fun x => by simp
  rw [h, List.map_const', List.sum_replicate, smul_eq_mul, List.length_range]

theorem mem_gadgetEdges {R : ℕ} {name : String} {a : ℕ} {l : List Vertex} :
    l ∈ gadgetEdges R name a ↔ a < R ∧ ∃ b < R, l = lineOf R name a b := by
  unfold gadgetEdges
  by_cases ha : a < R
  · simp [ha, List.mem_map, List.mem_range, eq_comm]
  · simp [ha]

theorem gadgetEdges_length {R : ℕ} {name : String} {a : ℕ} (ha : a < R) :
    (gadgetEdges R name a).length = R := by
  simp [gadgetEdges, ha]

/-- The unique offset hitting `(x, y)`: `b = (y - a*x) mod R`, computed in `ℤ`
and brought back to `ℕ`. -/
theorem affine_sol (R a x y : ℕ) (hx : x < R) (hy : y < R) :
    (((y : ℤ) - (a : ℤ) * (x : ℤ)) % (R : ℤ)).toNat < R ∧
      (a * x + (((y : ℤ) - (a : ℤ) * (x : ℤ)) % (R : ℤ)).toNat) % R = y := by
  have hR : 0 < R := by omega
  set z : ℤ := ((y : ℤ) - (a : ℤ) * (x : ℤ)) % (R : ℤ) with hzdef
  have hz0 : 0 ≤ z := Int.emod_nonneg _ (by exact_mod_cast hR.ne')
  have hzR : z < (R : ℤ) := Int.emod_lt_of_pos _ (by exact_mod_cast hR)
  refine ⟨by omega, ?_⟩
  have h2 : (((a * x + z.toNat) % R : ℕ) : ℤ) = (y : ℤ) := by
    push_cast [Int.toNat_of_nonneg hz0]
    rw [hzdef, Int.add_emod, Int.emod_emod_of_dvd _ dvd_rfl, ← Int.add_emod]
    have h3 : (a : ℤ) * x + ((y : ℤ) - (a : ℤ) * x) = (y : ℤ) := by ring
    rw [h3, Int.emod_eq_of_lt (by positivity) (by exact_mod_cast hy)]
  exact_mod_cast h2

theorem affine_mem (R a x y : ℕ) (hx : x < R) (hy : y < R) :
    ∃ b < R, (a * x + b) % R = y :=
  ⟨_, (affine_sol R a x y hx hy).1, (affine_sol R a x y hx hy).2⟩

theorem affine_unique (R a b1 b2 x : ℕ) (hb1 : b1 < R) (hb2 : b2 < R)
    (h : (a * x + b1) % R = (a * x + b2) % R) : b1 = b2 := by
  have h1 : Nat.ModEq R (a * x + b1) (a * x + b2) := h
  have h2 := h1.add_left_cancel' (a * x)
  unfold Nat.ModEq at h2
  rwa [Nat.mod_eq_of_lt hb1, Nat.mod_eq_of_lt hb2] at h2

/-- Membership in `vertices_in_partition`, the flattened union of one
`a`-class: exactly the gadget's full vertex square. -/
theorem mem_gadgetFlat {R a : ℕ} (ha : a < R) {name : String} {u : Vertex} :
    u ∈ (gadgetEdges R name a).flatMap id ↔ ∃ x < R, ∃ y < R, u = (name, x, y) := by
  constructor
  · intro h
    rw [List.mem_flatMap] at h
    obtain ⟨l, hl, hu⟩ := h
    rw [mem_gadgetEdges] at hl
    obtain ⟨-, b, hb, rfl⟩ := hl
    simp only [id_eq] at hu
    rw [mem_lineOf] at hu
    obtain ⟨x, hx, rfl⟩ := hu
    exact ⟨x, hx, _, Nat.mod_lt _ (by omega), rfl⟩
  · rintro ⟨x, hx, y, hy, rfl⟩
    obtain ⟨b, hb, hxy⟩ := affine_mem R a x y hx hy
    rw [List.mem_flatMap]
    exact ⟨lineOf R name a b, mem_gadgetEdges.mpr ⟨ha, b, hb, rfl⟩,
      mem_lineOf.mpr ⟨x, hx, by rw [hxy]⟩⟩

/-! ## Registration-fold lemmas -/

theorem addVertices_k (M : MatchingInstance) (vs : List Vertex) (p : ℕ) :
    (M.addVertices vs p).k = M.k := by
  unfold MatchingInstance.addVertices
  split <;> rfl

theorem addVertices_R (M : MatchingInstance) (vs : List Vertex) (p : ℕ) :
    (M.addVertices vs p).R = M.R := by
  unfold MatchingInstance.addVertices
  split <;> rfl

theorem addVertices_edges (M : MatchingInstance) (vs : List Vertex) (p : ℕ) :
    (M.addVertices vs p).edges = M.edges := by
  unfold MatchingInstance.addVertices
  split <;> rfl

theorem mem_keys_addVertices {M : MatchingInstance} {vs : List Vertex} {p q : ℕ} :
    q ∈ (M.addVertices vs p).partitionKeys ↔
      q ∈ M.partitionKeys ∨ (q = p ∧ vs ≠ []) := by
  unfold MatchingInstance.addVertices
  by_cases hvs : vs.isEmpty
  · rw [List.isEmpty_iff] at hvs
    simp [hvs]
  · rw [List.isEmpty_iff] at hvs
    by_cases hp : p ∈ M.partitionKeys
    · simp only [if_neg (by simp [hvs] : ¬ vs.isEmpty = true), if_pos hp]
      constructor
      · exact Or.inl
      · rintro (h | ⟨rfl, -⟩) <;> [exact h; exact hp]
    · simp only [if_neg (by simp [hvs] : ¬ vs.isEmpty = true), if_neg hp,
        List.mem_append, List.mem_singleton]
      tauto

theorem nodup_keys_addVertices {M : MatchingInstance} {vs : List Vertex} {p : ℕ}
    (h : M.partitionKeys.Nodup) : (M.addVertices vs p).partitionKeys.Nodup := by
  unfold MatchingInstance.addVertices
  split
  · exact h
  · show (if p ∈ M.partitionKeys then M.partitionKeys
      else M.partitionKeys ++ [p]).Nodup
    split
    · exact h
    · next hp => simpa [List.nodup_append] using ⟨h, hp⟩

theorem mem_vertices_addVertices {M : MatchingInstance} {vs : List Vertex}
    {p : ℕ} {u : Vertex} :
    u ∈ (M.addVertices vs p).vertices ↔ u ∈ M.vertices ∨ u ∈ vs := by
  unfold MatchingInstance.addVertices
  by_cases hvs : vs.isEmpty
  · rw [List.isEmpty_iff] at hvs
    simp [hvs]
  · rw [List.isEmpty_iff] at hvs
    simp only [if_neg (by simp [hvs] : ¬ vs.isEmpty = true), List.mem_append]

theorem mem_members_addVertices {M : MatchingInstance} {vs : List Vertex}
    {p q : ℕ} {u : Vertex} :
    u ∈ (M.addVertices vs p).partitionMembers q ↔
      u ∈ M.partitionMembers q ∨ (q = p ∧ u ∈ vs) := by
  unfold MatchingInstance.addVertices
  by_cases hvs : vs.isEmpty
  · rw [List.isEmpty_iff] at hvs
    simp [hvs]
  · rw [List.isEmpty_iff] at hvs
    simp only [if_neg (by simp [hvs] : ¬ vs.isEmpty = true)]
    show u ∈ (if q = p then M.partitionMembers q ++ vs
      else M.partitionMembers q) ↔ _
    by_cases hq : q = p
    · simp [hq, List.mem_append]
    · simp [hq]

theorem foldl_addVertices_k (regs : List (List Vertex × ℕ)) (M : MatchingInstance) :
    (regs.foldl (fun M r => M.addVertices r.1 r.2) M).k = M.k := by
  induction regs generalizing M with
  | nil => rfl
  | cons r rs ih => rw [List.foldl_cons, ih, addVertices_k]

theorem foldl_addVertices_R (regs : List (List Vertex × ℕ)) (M : MatchingInstance) :
    (regs.foldl (fun M r => M.addVertices r.1 r.2) M).R = M.R := by
  induction regs generalizing M with
  | nil => rfl
  | cons r rs ih => rw [List.foldl_cons, ih, addVertices_R]

theorem foldl_addVertices_edges (regs : List (List Vertex × ℕ)) (M : MatchingInstance) :
    (regs.foldl (fun M r => M.addVertices r.1 r.2) M).edges = M.edges := by
  induction regs generalizing M with
  | nil => rfl
  | cons r rs ih => rw [List.foldl_cons, ih, addVertices_edges]

theorem foldl_addVertices_mem_keys (regs : List (List Vertex × ℕ))
    (M : MatchingInstance) (q : ℕ) :
    q ∈ (regs.foldl (fun M r => M.addVertices r.1 r.2) M).partitionKeys ↔
      q ∈ M.partitionKeys ∨ ∃ r ∈ regs, q = r.2 ∧ r.1 ≠ [] := by
  induction regs generalizing M with
  | nil => simp
  | cons r rs ih =>
    rw [List.foldl_cons, ih, mem_keys_addVertices]
    simp only [List.mem_cons]
    constructor
    · rintro ((h | h) | h)
      · exact Or.inl h
      · exact Or.inr ⟨r, Or.inl rfl, h⟩
      · obtain ⟨r', hr', hq⟩ := h
        exact Or.inr ⟨r', Or.inr hr', hq⟩
    · rintro (h | ⟨r', (rfl | hr'), hq⟩)
      · exact Or.inl (Or.inl h)
      · exact Or.inl (Or.inr hq)
      · exact Or.inr ⟨r', hr', hq⟩

theorem foldl_addVertices_nodup_keys (regs : List (List Vertex × ℕ))
    (M : MatchingInstance) (h : M.partitionKeys.Nodup) :
    (regs.foldl (fun M r => M.addVertices r.1 r.2) M).partitionKeys.Nodup := by
  induction regs generalizing M with
  | nil => exact h
  | cons r rs ih => exact ih _ (nodup_keys_addVertices h)

theorem foldl_addVertices_mem_vertices (regs : List (List Vertex × ℕ))
    (M : MatchingInstance) (u : Vertex) :
    u ∈ (regs.foldl (fun M r => M.addVertices r.1 r.2) M).vertices ↔
      u ∈ M.vertices ∨ ∃ r ∈ regs, u ∈ r.1 := by
  induction regs generalizing M with
  | nil => simp
  | cons r rs ih =>
    rw [List.foldl_cons, ih, mem_vertices_addVertices]
    simp only [List.mem_cons]
    constructor
    · rintro ((h | h) | ⟨r', hr', hu⟩)
      · exact Or.inl h
      · exact Or.inr ⟨r, Or.inl rfl, h⟩
      · exact Or.inr ⟨r', Or.inr hr', hu⟩
    · rintro (h | ⟨r', (rfl | hr'), hu⟩)
      · exact Or.inl (Or.inl h)
      · exact Or.inl (Or.inr hu)
      · exact Or.inr ⟨r', hr', hu⟩

theorem foldl_addVertices_mem_members (regs : List (List Vertex × ℕ))
    (M : MatchingInstance) (q : ℕ) (u : Vertex) :
    u ∈ (regs.foldl (fun M r => M.addVertices r.1 r.2) M).partitionMembers q ↔
      u ∈ M.partitionMembers q ∨ ∃ r ∈ regs, q = r.2 ∧ u ∈ r.1 := by
  induction regs generalizing M with
  | nil => simp
  | cons r rs ih =>
    rw [List.foldl_cons, ih, mem_members_addVertices]
    simp only [List.mem_cons]
    constructor
    · rintro ((h | ⟨hq, hu⟩) | ⟨r', hr', hq, hu⟩)
      · exact Or.inl h
      · exact Or.inr ⟨r, Or.inl rfl, hq, hu⟩
      · exact Or.inr ⟨r', Or.inr hr', hq, hu⟩
    · rintro (h | ⟨r', (rfl | hr'), hq, hu⟩)
      · exact Or.inl (Or.inl h)
      · exact Or.inl (Or.inr ⟨hq, hu⟩)
      · exact Or.inr ⟨r', hr', hq, hu⟩

theorem mem_registrations {csp : CSPInstance} {r : List Vertex × ℕ} :
    r ∈ registrations csp ↔ ∃ v ∈ csp.vars, ∃ a < csp.R,
      r = ((gadgetEdges csp.R v a).flatMap id,
        csp.getPartition v * csp.R + a) := by
  simp only [registrations, List.mem_flatMap, List.mem_map, List.mem_range]
  constructor
  · rintro ⟨v, hv, a, ha, rfl⟩
    exact ⟨v, hv, a, ha, rfl⟩
  · rintro ⟨v, hv, a, ha, rfl⟩
    exact ⟨v, hv, a, ha, rfl⟩

theorem gadgetFlat_ne_nil {R a : ℕ} (ha : a < R) (name : String) :
    (gadgetEdges R name a).flatMap id ≠ [] :=
  List.ne_nil_of_mem ((mem_gadgetFlat ha).mpr ⟨0, by omega, 0, by omega, rfl⟩)

theorem reduce_k (csp : CSPInstance) : (reduce_csp_to_matching csp).k = csp.k := by
  show (registerAll csp).k = csp.k
  unfold registerAll
  rw [foldl_addVertices_k]
  rfl

theorem reduce_R (csp : CSPInstance) : (reduce_csp_to_matching csp).R = csp.R := by
  show (registerAll csp).R = csp.R
  unfold registerAll
  rw [foldl_addVertices_R]
  rfl

theorem reduce_edges (csp : CSPInstance) :
    (reduce_csp_to_matching csp).edges =
      csp.constraints.flatMap (fun c => constraintEdges csp.R c) := rfl

theorem reduce_keys (csp : CSPInstance) :
    (reduce_csp_to_matching csp).partitionKeys = (registerAll csp).partitionKeys := rfl

theorem reduce_mem_keys (csp : CSPInstance) (q : ℕ) :
    q ∈ (reduce_csp_to_matching csp).partitionKeys ↔
      ∃ v ∈ csp.vars, ∃ a < csp.R, q = csp.getPartition v * csp.R + a := by
  rw [reduce_keys]
  unfold registerAll
  rw [foldl_addVertices_mem_keys]
  simp only [MatchingInstance.empty, List.not_mem_nil, false_or]
  constructor
  · rintro ⟨r, hr, rfl, -⟩
    obtain ⟨v, hv, a, ha, rfl⟩ := mem_registrations.mp hr
    exact ⟨v, hv, a, ha, rfl⟩
  · rintro ⟨v, hv, a, ha, rfl⟩
    refine ⟨_, mem_registrations.mpr ⟨v, hv, a, ha, rfl⟩, rfl, gadgetFlat_ne_nil ha v⟩

theorem reduce_nodup_keys (csp : CSPInstance) :
    (reduce_csp_to_matching csp).partitionKeys.Nodup := by
  rw [reduce_keys]
  unfold registerAll
  exact foldl_addVertices_nodup_keys _ _ List.nodup_nil

theorem reduce_mem_vertices (csp : CSPInstance) (u : Vertex) :
    u ∈ (reduce_csp_to_matching csp).vertices ↔
      ∃ v ∈ csp.vars, ∃ a < csp.R, u ∈ (gadgetEdges csp.R v a).flatMap id := by
  show u ∈ (registerAll csp).vertices ↔ _
  unfold registerAll
  rw [foldl_addVertices_mem_vertices]
  simp only [MatchingInstance.empty, List.not_mem_nil, false_or]
  constructor
  · rintro ⟨r, hr, hu⟩
    obtain ⟨v, hv, a, ha, rfl⟩ := mem_registrations.mp hr
    exact ⟨v, hv, a, ha, hu⟩
  · rintro ⟨v, hv, a, ha, hu⟩
    exact ⟨_, mem_registrations.mpr ⟨v, hv, a, ha, rfl⟩, hu⟩

theorem reduce_mem_members (csp : CSPInstance) (q : ℕ) (u : Vertex) :
    u ∈ (reduce_csp_to_matching csp).partitionMembers q ↔
      ∃ v ∈ csp.vars, ∃ a < csp.R,
        q = csp.getPartition v * csp.R + a ∧
          u ∈ (gadgetEdges csp.R v a).flatMap id := by
  show u ∈ (registerAll csp).partitionMembers q ↔ _
  unfold registerAll
  rw [foldl_addVertices_mem_members]
  simp only [MatchingInstance.empty, List.not_mem_nil, false_or]
  constructor
  · rintro ⟨r, hr, rfl, hu⟩
    obtain ⟨v, hv, a, ha, rfl⟩ := mem_registrations.mp hr
    exact ⟨v, hv, a, ha, rfl, hu⟩
  · rintro ⟨v, hv, a, ha, rfl, hu⟩
    exact ⟨_, mem_registrations.mpr ⟨v, hv, a, ha, rfl⟩, rfl, hu⟩

/-! ## The round-robin dictionary on a duplicate-free variable list -/

theorem varPartition_get (vars : List String) (k : ℕ) (hnd : vars.Nodup)
    (i : ℕ) (h : i < vars.length) :
    varPartition vars k (vars.get ⟨i, h⟩) = some (i % k) := by
  unfold varPartition
  have hgv : vars.get ⟨i, h⟩ = vars[i] := List.get_eq_getElem vars ⟨i, h⟩
  set v := vars.get ⟨i, h⟩ with hv
  set L := (vars.enum.map (fun p => (p.2, p.1 % k))).reverse with hL
  have hmem : ((v, i % k) : String × ℕ) ∈ L := by
    rw [hL, List.mem_reverse, List.mem_map]
    refine ⟨(i, v), ?_, rfl⟩
    rw [List.mem_enum_iff_getElem?]
    show vars[i]? = some v
    rw [List.getElem?_eq_getElem h, hgv]
  have huniq : ∀ e ∈ L, e.1 = v → e = (v, i % k) := by
    intro e he hev
    rw [hL, List.mem_reverse, List.mem_map] at he
    obtain ⟨⟨j, w⟩, hjw, rfl⟩ := he
    rw [List.mem_enum_iff_getElem?] at hjw
    have hj : j < vars.length := by
      by_contra hc
      rw [List.getElem?_eq_none (by omega)] at hjw
      exact Option.noConfusion hjw
    rw [List.getElem?_eq_getElem hj] at hjw
    have hw : vars[j] = w := Option.some.inj hjw
    have hwv : w = v := hev
    have hji : j = i := hnd.getElem_inj_iff.mp (by rw [hw, hwv, hgv])
    simp only [hji, hwv]
  have hsome : (L.find? (fun q => decide (q.1 = v))).isSome := by
    rw [List.find?_isSome]
    exact ⟨(v, i % k), hmem, by simp⟩
  obtain ⟨y, hy⟩ := Option.isSome_iff_exists.mp hsome
  have hy1 : y.1 = v := by simpa using List.find?_some hy
  have hye : y = (v, i % k) := huniq y (List.mem_of_find?_eq_some hy) hy1
  rw [hy, hye]
  rfl

theorem getPartition_get (csp : CSPInstance) (hnd : csp.vars.Nodup)
    (i : ℕ) (h : i < csp.vars.length) :
    csp.getPartition (csp.vars.get ⟨i, h⟩) = i % csp.k := by
  unfold CSPInstance.getPartition
  rw [varPartition_get csp.vars csp.k hnd i h]
  rfl

/-! ## Claim C1 -/

theorem reduce_mem_keys_iff_lt (csp : CSPInstance) (hk : 1 ≤ csp.k)
    (hlen : csp.k ≤ csp.vars.length) (hnd : csp.vars.Nodup) (q : ℕ) :
    q ∈ (reduce_csp_to_matching csp).partitionKeys ↔ q < csp.k * csp.R := by
  rw [reduce_mem_keys]
  constructor
  · rintro ⟨v, hv, a, ha, rfl⟩
    obtain ⟨⟨i, hi⟩, rfl⟩ := List.mem_iff_get.mp hv
    rw [getPartition_get csp hnd i hi]
    have h1 : i % csp.k < csp.k := Nat.mod_lt _ (by omega)
    calc (i % csp.k) * csp.R + a < (i % csp.k) * csp.R + csp.R := by omega
      _ = (i % csp.k + 1) * csp.R := by ring
      _ ≤ csp.k * csp.R := Nat.mul_le_mul_right _ (by omega)
  · intro hq
    have hR0 : 0 < csp.R := by
      rcases Nat.eq_zero_or_pos csp.R with h0 | h0
      · rw [h0, Nat.mul_zero] at hq
        omega
      · exact h0
    have hi : q / csp.R < csp.k := by
      rw [Nat.div_lt_iff_lt_mul hR0]
      omega
    have hil : q / csp.R < csp.vars.length := lt_of_lt_of_le hi hlen
    refine ⟨csp.vars.get ⟨q / csp.R, hil⟩, List.get_mem _ _ _, q % csp.R,
      Nat.mod_lt _ hR0, ?_⟩
    rw [getPartition_get csp hnd _ hil, Nat.mod_eq_of_lt hi]
    exact (Nat.div_add_mod' q csp.R).symm

/-- C1: for a valid CSP instance — at least one partition, a duplicate-free
variable list long enough to touch every one of the `k` round-robin classes,
and a positive alphabet — the reduction populates exactly `k*R` partitions;
the variable at position `idx` has CSP partition `idx % k` in the
round-robin dictionary and is registered under every matching partition index
`(idx % k)*R + a` for `a < R`. -/
theorem spec_C1 (csp : CSPInstance) (hk : 1 ≤ csp.k) (hR : 1 ≤ csp.R)
    (hlen : csp.k ≤ csp.vars.length) (hnd : csp.vars.Nodup) :
    (reduce_csp_to_matching csp).partitionKeys.length = csp.k * csp.R ∧
    ∀ i (h : i < csp.vars.length),
      varPartition csp.vars csp.k (csp.vars.get ⟨i, h⟩) = some (i % csp.k) ∧
      ∀ a < csp.R,
        (i % csp.k) * csp.R + a ∈ (reduce_csp_to_matching csp).partitionKeys := by
  constructor
  · have hnodup := reduce_nodup_keys csp
    have hfin : (reduce_csp_to_matching csp).partitionKeys.toFinset =
        Finset.range (csp.k * csp.R) := by
      ext q
      rw [List.mem_toFinset, Finset.mem_range,
        reduce_mem_keys_iff_lt csp hk hlen hnd]
    calc (reduce_csp_to_matching csp).partitionKeys.length
        = (reduce_csp_to_matching csp).partitionKeys.toFinset.card :=
          (List.toFinset_card_of_nodup hnodup).symm
      _ = (Finset.range (csp.k * csp.R)).card := by rw [hfin]
      _ = csp.k * csp.R := Finset.card_range _
  · intro i h
    refine ⟨varPartition_get csp.vars csp.k hnd i h, fun a ha => ?_⟩
    rw [reduce_mem_keys]
    exact ⟨csp.vars.get ⟨i, h⟩, List.get_mem _ _ _, a, ha,
      by rw [getPartition_get csp hnd i h]⟩

theorem spec_C1_witness :
    (reduce_csp_to_matching (CSPInstance.mk 1 1 ["v1"] [])).partitionKeys.length
      = 1 * 1 :=
  (spec_C1 (CSPInstance.mk 1 1 ["v1"] []) (by decide) (by decide) (by decide)
    (by decide)).1

/-! ## Claims C3 and C5 -/

/-- C3: for `R ≥ 1` the gadget of any variable has exactly `R*R` vertices,
namely the triples `(name, x, y)` with `x, y < R`; every slope class `a < R`
holds exactly `R` lines, the line at offset `b` being the ordered sequence
`(name, x, (a*x + b) % R)` for `x = 0 .. R-1`. -/
theorem spec_C3 (R : ℕ) (hR : 1 ≤ R) (name : String) :
    (gadgetVertices R name).length = R * R ∧
    (∀ u, u ∈ gadgetVertices R name ↔ ∃ x < R, ∃ y < R, u = (name, x, y)) ∧
    ∀ a < R, (gadgetEdges R name a).length = R ∧
      ∀ b, b < R → (gadgetEdges R name a).getD b [] =
        (List.range R).map (fun x => (name, x, (a * x + b) % R)) := by
  refine ⟨gadgetVertices_length R name, fun u => mem_gadgetVertices,
    fun a ha => ⟨gadgetEdges_length ha, fun b hb => ?_⟩⟩
  rw [List.getD_eq_getElem?_getD]
  unfold gadgetEdges
  rw [if_pos ha, List.getElem?_map]
  have hr : (List.range R)[b]? = some b := by
    simp [List.getElem?_range, hb]
  rw [hr]
  rfl

theorem spec_C3_witness : (gadgetVertices 1 "v1").length = 1 * 1 :=
  (spec_C3 1 (by decide) "v1").1

/-- C5: within one slope class `a < R` the `R` lines are pairwise disjoint,
their union is exactly the gadget's vertex square, and the vertex `(x, y)`
lies on the line whose offset is `(y - a*x) mod R`. -/
theorem spec_C5 (R : ℕ) (name : String) (a : ℕ) (ha : a < R) :
    (∀ b1, b1 < R → ∀ b2, b2 < R → b1 ≠ b2 →
      ∀ u, u ∈ lineOf R name a b1 → u ∉ lineOf R name a b2) ∧
    (∀ u, u ∈ gadgetVertices R name ↔ ∃ b < R, u ∈ lineOf R name a b) ∧
    (∀ x y, x < R → y < R → (name, x, y) ∈ lineOf R name a
      (((y : ℤ) - (a : ℤ) * (x : ℤ)) % (R : ℤ)).toNat) := by
  refine ⟨?_, ?_, ?_⟩
  · intro b1 hb1 b2 hb2 hne u hu1 hu2
    rw [mem_lineOf] at hu1 hu2
    obtain ⟨x1, hx1, rfl⟩ := hu1
    obtain ⟨x2, hx2, heq⟩ := hu2
    simp only [Prod.mk.injEq] at heq
    obtain ⟨hx12, hm⟩ := heq.2
    subst hx12
    exact hne (affine_unique R a b1 b2 x1 hb1 hb2 (by rw [hm]))
  · intro u
    rw [mem_gadgetVertices]
    constructor
    · rintro ⟨x, hx, y, hy, rfl⟩
      obtain ⟨b, hb, hxy⟩ := affine_mem R a x y hx hy
      exact ⟨b, hb, mem_lineOf.mpr ⟨x, hx, by rw [hxy]⟩⟩
    · rintro ⟨b, hb, hu⟩
      rw [mem_lineOf] at hu
      obtain ⟨x, hx, rfl⟩ := hu
      exact ⟨x, hx, _, Nat.mod_lt _ (by omega), rfl⟩
  · intro x y hx hy
    obtain ⟨hb, hmem⟩ := affine_sol R a x y hx hy
    exact mem_lineOf.mpr ⟨x, hx, by rw [hmem]⟩

theorem spec_C5_witness :
    (("v1", 1, 0) : Vertex) ∈ lineOf 2 "v1" 1
      ((((0 : ℕ) : ℤ) - ((1 : ℕ) : ℤ) * ((1 : ℕ) : ℤ)) % ((2 : ℕ) : ℤ)).toNat :=
  (spec_C5 2 "v1" 1 (by decide)).2.2 1 0 (by decide) (by decide)

/-! ## Cartesian-product lemmas -/

theorem listProd_length {α : Type} (ls : List (List α)) :
    (listProd ls).length = (ls.map List.length).prod := by
  induction ls with
  | nil => rfl
  | cons l ls ih =>
    show (l.flatMap fun x => (listProd ls).map (fun t => x :: t)).length = _
    rw [List.length_flatMap]
    have h : (List.map (List.length ∘ fun x => (listProd ls).map (fun t => x :: t)) l)
        = List.map (fun _ => (listProd ls).length) l :=
      List.map_congr_left (fun x _ => by simp)
    rw [h, List.map_const', List.sum_replicate, smul_eq_mul, ih]
    simp [List.map_cons, List.prod_cons]

theorem mem_listProd {α : Type} {ls : List (List α)} {combo : List α} :
    combo ∈ listProd ls ↔ List.Forall₂ (fun x l => x ∈ l) combo ls := by
  induction ls generalizing combo with
  | nil =>
    show combo ∈ [[]] ↔ _
    rw [List.mem_singleton, List.forall₂_nil_right_iff]
  | cons l ls ih =>
    show combo ∈ (l.flatMap fun x => (listProd ls).map (fun t => x :: t)) ↔ _
    rw [List.mem_flatMap]
    constructor
    · rintro ⟨x, hx, ht⟩
      rw [List.mem_map] at ht
      obtain ⟨t, ht, rfl⟩ := ht
      exact List.Forall₂.cons hx (ih.mp ht)
    · intro h
      rw [List.forall₂_cons_right_iff] at h
      obtain ⟨x, t, hx, ht, rfl⟩ := h
      exact ⟨x, hx, List.mem_map.mpr ⟨t, ih.mpr ht, rfl⟩⟩

theorem listProd_mem_of_mem {α : Type} {ls : List (List α)} {combo : List α}
    (h : combo ∈ listProd ls) {x : α} (hx : x ∈ combo) : ∃ l ∈ ls, x ∈ l := by
  have h2 := mem_listProd.mp h
  clear h
  induction h2 with
  | nil => exact absurd hx (List.not_mem_nil x)
  | cons hxl _ ih =>
    rcases List.mem_cons.mp hx with rfl | hx2
    · exact ⟨_, List.mem_cons_self _ _, hxl⟩
    · obtain ⟨l', hl', hxl'⟩ := ih hx2
      exact ⟨l', List.mem_cons_of_mem _ hl', hxl'⟩

theorem listProd_eq_nil_of_mem_nil {α : Type} {ls : List (List α)}
    (h : ([] : List α) ∈ ls) : listProd ls = [] := by
  induction ls with
  | nil => exact absurd h (List.not_mem_nil _)
  | cons l ls ih =>
    rcases List.mem_cons.mp h with rfl | h2
    · rfl
    · show (l.flatMap fun x => (listProd ls).map (fun t => x :: t)) = []
      rw [ih h2]
      simp

/-! ## Constraint-expansion lemmas and claim C4 -/

theorem forall₂_mem_left {α β : Type} {P : α → β → Prop} {l1 : List α}
    {l2 : List β} (h : List.Forall₂ P l1 l2) {x : α} (hx : x ∈ l1) :
    ∃ y ∈ l2, P x y := by
  induction h with
  | nil => exact absurd hx (List.not_mem_nil x)
  | cons hp _ ih =>
    rcases List.mem_cons.mp hx with rfl | hx2
    · exact ⟨_, List.mem_cons_self _ _, hp⟩
    · obtain ⟨y, hy, hpy⟩ := ih hx2
      exact ⟨y, List.mem_cons_of_mem _ hy, hpy⟩

theorem length_of_mem_gadgetEdges {R : ℕ} {name : String} {a : ℕ}
    {l : List Vertex} (h : l ∈ gadgetEdges R name a) : l.length = R := by
  obtain ⟨-, b, -, rfl⟩ := mem_gadgetEdges.mp h
  exact lineOf_length R name a b

theorem mem_assignEdges {R : ℕ} {vars : List String} {asg : List ℕ}
    {e : List Vertex} :
    e ∈ assignEdges R vars asg ↔ ∃ combo,
      List.Forall₂ (fun l p => l ∈ gadgetEdges R p.1 p.2) combo (vars.zip asg) ∧
      e = combo.flatMap id := by
  unfold assignEdges
  rw [List.mem_map]
  constructor
  · rintro ⟨combo, hc, rfl⟩
    rw [mem_listProd] at hc
    exact ⟨combo, List.forall₂_map_right_iff.mp hc, rfl⟩
  · rintro ⟨combo, hc, rfl⟩
    exact ⟨combo, mem_listProd.mpr (List.forall₂_map_right_iff.mpr hc), rfl⟩

theorem assignEdges_length (R : ℕ) (vars : List String) (asg : List ℕ)
    (hlen : asg.length = vars.length) (hsym : ∀ a ∈ asg, a < R) :
    (assignEdges R vars asg).length = R ^ vars.length := by
  unfold assignEdges
  rw [List.length_map, listProd_length, List.map_map]
  have h : List.map (List.length ∘ fun p => gadgetEdges R p.1 p.2) (vars.zip asg)
      = List.map (fun _ => R) (vars.zip asg) := by
    apply List.map_congr_left
    intro p hp
    have hpa : p.2 ∈ asg := by
      obtain ⟨v, a⟩ := p
      exact (List.of_mem_zip hp).2
    simp [Function.comp, gadgetEdges_length (hsym p.2 hpa)]
  rw [h, List.map_const', List.prod_replicate, List.length_zip, hlen, min_self]

theorem length_of_mem_assignEdges {R : ℕ} {vars : List String} {asg : List ℕ}
    {e : List Vertex} (hlen : asg.length = vars.length)
    (he : e ∈ assignEdges R vars asg) : e.length = R * vars.length := by
  rw [mem_assignEdges] at he
  obtain ⟨combo, hc, rfl⟩ := he
  rw [List.length_flatMap]
  have h : List.map (List.length ∘ id) combo
      = List.map (fun _ => R) combo := by
    apply List.map_congr_left
    intro l hl
    obtain ⟨p, -, hp⟩ := forall₂_mem_left hc hl
    simpa using length_of_mem_gadgetEdges hp
  rw [h, List.map_const', List.sum_replicate, smul_eq_mul, hc.length_eq,
    List.length_zip, hlen, min_self, mul_comm]

theorem mem_constraintEdges {R : ℕ} {c : List String × List (List ℕ)}
    {e : List Vertex} :
    e ∈ constraintEdges R c ↔ ∃ asg ∈ c.2, e ∈ assignEdges R c.1 asg := by
  unfold constraintEdges
  rw [List.mem_flatMap]

/-- C4: a constraint over `t` variables with `m` allowed assignments (each a
`t`-tuple of in-range symbols over declared variables) contributes exactly
`m * R^t` hyperedges, each of length `R*t`, and each hyperedge is the
concatenation, in constraint-variable order, of one line chosen from each
variable's slope class selected by the assignment's symbol; the reduction's
edge list is exactly the concatenation of these contributions over the
constraints in order. -/
theorem spec_C4 (csp : CSPInstance) (c : List String × List (List ℕ))
    (hc : c ∈ csp.constraints) (hvars : ∀ v ∈ c.1, v ∈ csp.vars)
    (hlen : ∀ asg ∈ c.2, asg.length = c.1.length)
    (hsym : ∀ asg ∈ c.2, ∀ a ∈ asg, a < csp.R) :
    (constraintEdges csp.R c).length = c.2.length * csp.R ^ c.1.length ∧
    (∀ e ∈ constraintEdges csp.R c, e.length = csp.R * c.1.length) ∧
    (∀ e ∈ constraintEdges csp.R c, ∃ asg ∈ c.2, ∃ combo,
      List.Forall₂ (fun l p => l ∈ gadgetEdges csp.R p.1 p.2) combo
        (c.1.zip asg) ∧ e = combo.flatMap id) ∧
    (reduce_csp_to_matching csp).edges =
      csp.constraints.flatMap (fun c2 => constraintEdges csp.R c2) := by
  refine ⟨?_, ?_, ?_, reduce_edges csp⟩
  · unfold constraintEdges
    rw [List.length_flatMap]
    have h : List.map (List.length ∘ fun asg => assignEdges csp.R c.1 asg) c.2
        = List.map (fun _ => csp.R ^ c.1.length) c.2 := by
      apply List.map_congr_left
      intro asg ha
      simpa using assignEdges_length csp.R c.1 asg (hlen asg ha) (hsym asg ha)
    rw [h, List.map_const', List.sum_replicate, smul_eq_mul]
  · intro e he
    obtain ⟨asg, ha, he2⟩ := mem_constraintEdges.mp he
    exact length_of_mem_assignEdges (hlen asg ha) he2
  · intro e he
    obtain ⟨asg, ha, he2⟩ := mem_constraintEdges.mp he
    obtain ⟨combo, hcombo, rfl⟩ := mem_assignEdges.mp he2
    exact ⟨asg, ha, combo, hcombo, rfl⟩

theorem spec_C4_witness :
    (constraintEdges 2 (["v1"], [[0], [1]])).length = 2 * 2 ^ 1 :=
  (spec_C4 (CSPInstance.mk 2 1 ["v1"] [(["v1"], [[0], [1]])])
    (["v1"], [[0], [1]]) (by decide) (by decide) (by decide) (by decide)).1

/-! ## Claims C7 and C8 -/

/-- C7: in a valid instance (every constraint variable is declared), every
vertex occurring in any hyperedge of the reduction's output also belongs to
the overall vertex set built by partition registration. -/
theorem spec_C7 (csp : CSPInstance)
    (hvars : ∀ c ∈ csp.constraints, ∀ v ∈ c.1, v ∈ csp.vars) :
    ∀ e ∈ (reduce_csp_to_matching csp).edges, ∀ u ∈ e,
      u ∈ (reduce_csp_to_matching csp).vertices := by
  intro e he u hu
  rw [reduce_edges, List.mem_flatMap] at he
  obtain ⟨c, hc, he2⟩ := he
  obtain ⟨asg, hasg, he3⟩ := mem_constraintEdges.mp he2
  obtain ⟨combo, hcombo, rfl⟩ := mem_assignEdges.mp he3
  rw [List.mem_flatMap] at hu
  obtain ⟨l, hl, hu2⟩ := hu
  simp only [id_eq] at hu2
  obtain ⟨p, hp, hlp⟩ := forall₂_mem_left hcombo hl
  obtain ⟨w, a⟩ := p
  have hwv : w ∈ c.1 := (List.of_mem_zip hp).1
  obtain ⟨ha, b, hb, rfl⟩ := mem_gadgetEdges.mp hlp
  obtain ⟨x, hx, rfl⟩ := mem_lineOf.mp hu2
  rw [reduce_mem_vertices]
  exact ⟨w, hvars c hc w hwv, a, ha,
    (mem_gadgetFlat ha).mpr ⟨x, hx, _, Nat.mod_lt _ (by omega), rfl⟩⟩

theorem spec_C7_witness :
    (("v1", 0, 0) : Vertex) ∈
      (reduce_csp_to_matching (CSPInstance.mk 1 1 ["v1"] [(["v1"], [[0]])])).vertices :=
  spec_C7 (CSPInstance.mk 1 1 ["v1"] [(["v1"], [[0]])]) (by decide)
    [("v1", 0, 0)] (by decide) ("v1", 0, 0) (by decide)

theorem base_decomp {R c a : ℕ} (ha : a < R) :
    (c * R + a) / R = c ∧ (c * R + a) % R = a := by
  constructor
  · rw [mul_comm, Nat.mul_add_div (by omega), Nat.div_eq_of_lt ha, Nat.add_zero]
  · rw [mul_comm, Nat.mul_add_mod, Nat.mod_eq_of_lt ha]

/-- Membership in a member set whose index decomposes as `p*R + a`, `a < R`:
the slope component is irrelevant, only the base partition matters. -/
theorem reduce_mem_members_base (csp : CSPInstance) (p a : ℕ) (ha : a < csp.R)
    (u : Vertex) :
    u ∈ (reduce_csp_to_matching csp).partitionMembers (p * csp.R + a) ↔
      ∃ v ∈ csp.vars, csp.getPartition v = p ∧
        ∃ x < csp.R, ∃ y < csp.R, u = (v, x, y) := by
  rw [reduce_mem_members]
  constructor
  · rintro ⟨v, hv, a', ha', heq, hu⟩
    have h1 : csp.getPartition v = p := by
      have e1 := (base_decomp (c := p) ha).1
      have e2 := (base_decomp (c := csp.getPartition v) ha').1
      rw [heq] at e1
      rw [e2] at e1
      exact e1
    exact ⟨v, hv, h1, (mem_gadgetFlat ha').mp hu⟩
  · rintro ⟨v, hv, rfl, x, hx, y, hy, rfl⟩
    exact ⟨v, hv, a, ha, rfl, (mem_gadgetFlat ha).mpr ⟨x, hx, y, hy, rfl⟩⟩

/-- C8: every one of a declared variable's `R*R` gadget vertices is a member
of all `R` partition member sets `p*R + a` (where `p` is the variable's CSP
partition), and those `R` member sets have identical membership — the
multi-partition overlap is not limited to `x = 0`. -/
theorem spec_C8 (csp : CSPInstance) (v : String) (hv : v ∈ csp.vars) :
    (∀ a < csp.R, ∀ x < csp.R, ∀ y < csp.R,
      (v, x, y) ∈ (reduce_csp_to_matching csp).partitionMembers
        (csp.getPartition v * csp.R + a)) ∧
    (∀ a1 < csp.R, ∀ a2 < csp.R, ∀ u : Vertex,
      u ∈ (reduce_csp_to_matching csp).partitionMembers
          (csp.getPartition v * csp.R + a1) ↔
        u ∈ (reduce_csp_to_matching csp).partitionMembers
          (csp.getPartition v * csp.R + a2)) := by
  constructor
  · intro a ha x hx y hy
    rw [reduce_mem_members]
    exact ⟨v, hv, a, ha, rfl, (mem_gadgetFlat ha).mpr ⟨x, hx, y, hy, rfl⟩⟩
  · intro a1 ha1 a2 ha2 u
    rw [reduce_mem_members_base csp _ a1 ha1, reduce_mem_members_base csp _ a2 ha2]

theorem spec_C8_witness :
    (("v1", 1, 1) : Vertex) ∈
      (reduce_csp_to_matching (CSPInstance.mk 2 1 ["v1"] [])).partitionMembers
        ((CSPInstance.mk 2 1 ["v1"] []).getPartition "v1" * 2 + 1) :=
  (spec_C8 (CSPInstance.mk 2 1 ["v1"] []) "v1" (by decide)).1 1 (by decide)
    1 (by decide) 1 (by decide)

/-! ## Claim C6 -/

/-- C6: `verify_properties` is a total boolean check; whenever the populated
partition count differs from `k*R` it reports the partition-count diagnostic
with the expected and found counts and returns `False`, and its result is
independent of the edge list — no hyperedge is examined. -/
theorem spec_C6 (M : MatchingInstance)
    (h : M.partitionKeys.length ≠ M.k * M.R) :
    verifyProperties M =
      (false, [Diag.partitionCount (M.k * M.R) M.partitionKeys.length]) ∧
    ∀ es, verifyProperties { M with edges := es } = verifyProperties M := by
  constructor
  · unfold verifyProperties
    rw [if_pos h]
  · intro es
    have hc : ({ M with edges := es } : MatchingInstance).partitionKeys.length ≠
        ({ M with edges := es } : MatchingInstance).k *
          ({ M with edges := es } : MatchingInstance).R := h
    unfold verifyProperties
    rw [if_pos hc, if_pos h]

theorem spec_C6_witness :
    verifyProperties (MatchingInstance.empty 1 1) =
      (false, [Diag.partitionCount
        ((MatchingInstance.empty 1 1).k * (MatchingInstance.empty 1 1).R)
        (MatchingInstance.empty 1 1).partitionKeys.length]) :=
  (spec_C6 (MatchingInstance.empty 1 1) (by decide)).1

/-! ## Claim C9 -/

theorem find?_ext {α : Type} (l : List α) (p q : α → Bool)
    (h : ∀ x ∈ l, p x = q x) : l.find? p = l.find? q := by
  induction l with
  | nil => rfl
  | cons x xs ih =>
    rw [List.find?_cons, List.find?_cons, h x (List.mem_cons_self x xs)]
    split
    · rfl
    · exact ih fun y hy => h y (List.mem_cons_of_mem x hy)

/-- The verifier's first-match attribution depends only on a vertex's
variable component, never on its in-gadget coordinates. -/
theorem attributedKey_uniform (csp : CSPInstance) (v : String)
    {x1 y1 x2 y2 : ℕ} (hx1 : x1 < csp.R) (hy1 : y1 < csp.R)
    (hx2 : x2 < csp.R) (hy2 : y2 < csp.R) :
    attributedKey (reduce_csp_to_matching csp) (v, x1, y1) =
      attributedKey (reduce_csp_to_matching csp) (v, x2, y2) := by
  unfold attributedKey
  apply find?_ext
  intro q hq
  have hiff : (v, x1, y1) ∈ (reduce_csp_to_matching csp).partitionMembers q ↔
      (v, x2, y2) ∈ (reduce_csp_to_matching csp).partitionMembers q := by
    rw [reduce_mem_members, reduce_mem_members]
    constructor
    · rintro ⟨v', hv', a, ha, rfl, hu⟩
      obtain ⟨x', hx', y', hy', hveq⟩ := (mem_gadgetFlat ha).mp hu
      have hvv : v' = v := (Prod.mk.injEq _ _ _ _).mp hveq.symm |>.1
      subst hvv
      exact ⟨v', hv', a, ha, rfl, (mem_gadgetFlat ha).mpr ⟨x2, hx2, y2, hy2, rfl⟩⟩
    · rintro ⟨v', hv', a, ha, rfl, hu⟩
      obtain ⟨x', hx', y', hy', hveq⟩ := (mem_gadgetFlat ha).mp hu
      have hvv : v' = v := (Prod.mk.injEq _ _ _ _).mp hveq.symm |>.1
      subst hvv
      exact ⟨v', hv', a, ha, rfl, (mem_gadgetFlat ha).mpr ⟨x1, hx1, y1, hy1, rfl⟩⟩
  simp [hiff]

/-- Attributing two distinct list elements to the same optional value caps
the number of distinct attributed values strictly below the list length. -/
theorem dedup_filterMap_lt {α β : Type} [DecidableEq α] [DecidableEq β]
    (e : List α) (f : α → Option β) (u0 u1 : α) (h0 : u0 ∈ e) (h1 : u1 ∈ e)
    (hne : u0 ≠ u1) (hf : f u0 = f u1) :
    ((e.filterMap f).dedup).length < e.length := by
  have hT : (e.filterMap f).dedup.length = (e.filterMap f).toFinset.card :=
    (List.card_toFinset _).symm
  rw [hT]
  have h2 : (e.filterMap f).toFinset.card ≤ (e.toFinset.image f).card := by
    apply Finset.card_le_card_of_injOn (fun b => some b)
    · intro b hb
      rw [List.mem_toFinset, List.mem_filterMap] at hb
      obtain ⟨a, ha, hab⟩ := hb
      rw [Finset.mem_image]
      exact ⟨a, List.mem_toFinset.mpr ha, hab⟩
    · intro a _ b _ hab
      exact Option.some.inj hab
  have himg : e.toFinset.image f = (e.toFinset.erase u0).image f := by
    apply Finset.Subset.antisymm
    · intro b hb
      rw [Finset.mem_image] at hb
      obtain ⟨a, ha, rfl⟩ := hb
      by_cases hau : a = u0
      · subst hau
        rw [Finset.mem_image]
        exact ⟨u1, Finset.mem_erase.mpr ⟨Ne.symm hne, List.mem_toFinset.mpr h1⟩,
          hf.symm⟩
      · rw [Finset.mem_image]
        exact ⟨a, Finset.mem_erase.mpr ⟨hau, ha⟩, rfl⟩
    · exact Finset.image_subset_image (Finset.erase_subset _ _)
  calc (e.filterMap f).toFinset.card
      ≤ (e.toFinset.image f).card := h2
    _ = ((e.toFinset.erase u0).image f).card := by rw [himg]
    _ ≤ (e.toFinset.erase u0).card := Finset.card_image_le
    _ < e.toFinset.card := Finset.card_erase_lt_of_mem (List.mem_toFinset.mpr h0)
    _ ≤ e.length := e.toFinset_card_le

/-- Any nonempty hyperedge produced by the reduction fails the verifier's
per-edge distinctness check when `R ≥ 2`: it contains a full line of `R ≥ 2`
distinct vertices of one variable, which all attribute to the same optional
partition. -/
theorem edgeOk_false_of_mem (csp : CSPInstance) (hR : 2 ≤ csp.R)
    (e : List Vertex) (he : e ∈ (reduce_csp_to_matching csp).edges)
    (hne : e ≠ []) : edgeOk (reduce_csp_to_matching csp) e = false := by
  rw [reduce_edges, List.mem_flatMap] at he
  obtain ⟨c, hc, he2⟩ := he
  obtain ⟨asg, hasg, he3⟩ := mem_constraintEdges.mp he2
  obtain ⟨combo, hcombo, rfl⟩ := mem_assignEdges.mp he3
  have hl : ∃ l ∈ combo, l ≠ [] := by
    by_contra hcon
    push_neg at hcon
    exact hne (List.flatMap_eq_nil_iff.mpr hcon)
  obtain ⟨l, hlc, hlne⟩ := hl
  obtain ⟨p, -, hlp⟩ := forall₂_mem_left hcombo hlc
  obtain ⟨w, a⟩ := p
  obtain ⟨ha, b, hb, rfl⟩ := mem_gadgetEdges.mp hlp
  have hsub : ∀ u ∈ lineOf csp.R w a b, u ∈ combo.flatMap id :=
    fun u hu => List.mem_flatMap.mpr ⟨lineOf csp.R w a b, hlc, by simpa using hu⟩
  have hu0 : ((w, 0, (a * 0 + b) % csp.R) : Vertex) ∈ lineOf csp.R w a b :=
    mem_lineOf.mpr ⟨0, by omega, rfl⟩
  have hu1 : ((w, 1, (a * 1 + b) % csp.R) : Vertex) ∈ lineOf csp.R w a b :=
    mem_lineOf.mpr ⟨1, by omega, rfl⟩
  have hne01 : ((w, 0, (a * 0 + b) % csp.R) : Vertex) ≠
      (w, 1, (a * 1 + b) % csp.R) := by
    intro hcon
    have := ((Prod.mk.injEq _ _ _ _).mp hcon).2
    exact absurd ((Prod.mk.injEq _ _ _ _).mp this).1 (by omega)
  have hfeq : attributedKey (reduce_csp_to_matching csp) (w, 0, (a * 0 + b) % csp.R)
      = attributedKey (reduce_csp_to_matching csp) (w, 1, (a * 1 + b) % csp.R) :=
    attributedKey_uniform csp w (by omega) (Nat.mod_lt _ (by omega))
      (by omega) (Nat.mod_lt _ (by omega))
  unfold edgeOk
  rw [decide_eq_false_iff_not]
  exact Nat.ne_of_lt (dedup_filterMap_lt (combo.flatMap id) _ _ _
    (hsub _ hu0) (hsub _ hu1) hne01 hfeq)

/-- C9 (amended): for `R ≥ 2`, if the reduction's output contains at least
one NONEMPTY hyperedge, `verify_properties` returns `False`. (An empty
hyperedge — produced by a constraint over zero variables — passes the
per-edge check, so the claim's original form fails; see the
counterexample.) -/
theorem spec_C9_amended (csp : CSPInstance) (hR : 2 ≤ csp.R)
    (e : List Vertex) (he : e ∈ (reduce_csp_to_matching csp).edges)
    (hne : e ≠ []) :
    (verifyProperties (reduce_csp_to_matching csp)).1 = false := by
  unfold verifyProperties
  by_cases hkeys : (reduce_csp_to_matching csp).partitionKeys.length ≠
      (reduce_csp_to_matching csp).k * (reduce_csp_to_matching csp).R
  · rw [if_pos hkeys]
  · rw [if_neg hkeys]
    have hfail := edgeOk_false_of_mem csp hR e he hne
    rcases hfind : (reduce_csp_to_matching csp).edges.find?
        (fun e2 => ! edgeOk (reduce_csp_to_matching csp) e2) with _ | e2
    · exfalso
      have hok := List.find?_eq_none.mp hfind e he
      rw [hfail] at hok
      simp at hok
    · rfl

theorem spec_C9_witness :
    (verifyProperties (reduce_csp_to_matching
      (CSPInstance.mk 2 1 ["v1"] [(["v1"], [[0]])]))).1 = false :=
  spec_C9_amended (CSPInstance.mk 2 1 ["v1"] [(["v1"], [[0]])]) (by decide)
    [("v1", 0, 0), ("v1", 1, 0)] (by decide) (by decide)

/-- C9 counterexample: with `R = 2 ≥ 2` a constraint over zero variables
contributes one empty hyperedge, yet the verifier succeeds: the instance has
at least one hyperedge and `verify_properties` returns `True`, refuting the
claim as stated. -/
theorem spec_C9_counterexample :
    (reduce_csp_to_matching (CSPInstance.mk 2 1 ["v1"] [([], [[]])])).edges.length
        = 1 ∧
    (verifyProperties (reduce_csp_to_matching
      (CSPInstance.mk 2 1 ["v1"] [([], [[]])]))).1 = true := by
  constructor
  · rfl
  · decide

/-! ## Claim C10 -/

/-- C10: an allowed assignment containing a symbol outside `[0, R)` is
silently expanded to zero hyperedges: the `defaultdict` lookup for the
missing slope yields an empty line list, so the Cartesian product over line
choices is empty. -/
theorem spec_C10 (R : ℕ) (vars : List String) (asg : List ℕ)
    (hlen : asg.length = vars.length) (hbad : ∃ a ∈ asg, R ≤ a) :
    assignEdges R vars asg = [] := by
  obtain ⟨a, ha, hRa⟩ := hbad
  obtain ⟨⟨i, hi⟩, rfl⟩ := List.mem_iff_get.mp ha
  have hiv : i < vars.length := by omega
  have hzlen : i < (vars.zip asg).length := by
    rw [List.length_zip]
    omega
  have hpair : (vars.zip asg).get ⟨i, hzlen⟩ =
      (vars.get ⟨i, hiv⟩, asg.get ⟨i, hi⟩) := by
    simp [List.get_eq_getElem, List.getElem_zip]
  have hmem : (vars.get ⟨i, hiv⟩, asg.get ⟨i, hi⟩) ∈ vars.zip asg :=
    hpair ▸ List.get_mem _ _ _
  have hnil : gadgetEdges R (vars.get ⟨i, hiv⟩) (asg.get ⟨i, hi⟩) = [] := by
    unfold gadgetEdges
    rw [if_neg (by omega)]
  have hmemnil : ([] : List (List Vertex)) ∈
      (vars.zip asg).map (fun p => gadgetEdges R p.1 p.2) :=
    List.mem_map.mpr ⟨_, hmem, hnil⟩
  unfold assignEdges
  rw [listProd_eq_nil_of_mem_nil hmemnil, List.map_nil]

theorem spec_C10_witness : assignEdges 2 ["v1"] [5] = [] :=
  spec_C10 2 ["v1"] [5] (by decide) ⟨5, by decide, by decide⟩

/-! ## Claim C2: the degree-bound dictionary -/

theorem bump_counts (L : List (String × ℕ)) (t : String) (f : String → ℕ)
    (hval : ∀ p ∈ L, p.2 = f p.1) (hkey : ∀ w, (∃ n, (w, n) ∈ L) ↔ 0 < f w) :
    (∀ p ∈ bump L t, p.2 = (fun w => if w = t then f w + 1 else f w) p.1) ∧
    (∀ w, (∃ n, (w, n) ∈ bump L t) ↔
      0 < (fun w => if w = t then f w + 1 else f w) w) := by
  unfold bump
  by_cases hany : L.any (fun p => decide (p.1 = t))
  · rw [if_pos hany]
    constructor
    · intro p hp
      rw [List.mem_map] at hp
      obtain ⟨p0, hp0, rfl⟩ := hp
      by_cases hpt : p0.1 = t
      · rw [if_pos hpt]
        simp only [if_pos hpt]
        rw [hval p0 hp0]
      · rw [if_neg hpt]
        simp only [if_neg hpt]
        exact hval p0 hp0
    · intro w
      constructor
      · rintro ⟨n, hn⟩
        rw [List.mem_map] at hn
        obtain ⟨p0, hp0, hne⟩ := hn
        have hw : p0.1 = w := by
          by_cases hpt : p0.1 = t
          · rw [if_pos hpt] at hne
            exact congrArg Prod.fst hne
          · rw [if_neg hpt] at hne
            exact congrArg Prod.fst hne
        have h0 : 0 < f w := (hkey w).mp ⟨p0.2, by rw [← hw]; exact hp0⟩
        dsimp only
        split <;> omega
      · intro h0
        by_cases hwt : w = t
        · subst hwt
          rw [List.any_eq_true] at hany
          obtain ⟨p0, hp0, hpt⟩ := hany
          rw [decide_eq_true_eq] at hpt
          exact ⟨p0.2 + 1, List.mem_map.mpr ⟨p0, hp0, by rw [if_pos hpt, hpt]⟩⟩
        · simp only [if_neg hwt] at h0
          obtain ⟨n, hn⟩ := (hkey w).mpr h0
          refine ⟨n, List.mem_map.mpr ⟨(w, n), hn, ?_⟩⟩
          rw [if_neg ?_]
          exact hwt
  · rw [if_neg hany]
    have hnot : ∀ n, (t, n) ∉ L := by
      intro n hn
      apply hany
      rw [List.any_eq_true]
      exact ⟨(t, n), hn, by simp⟩
    have hft : f t = 0 := by
      by_contra h
      obtain ⟨n, hn⟩ := (hkey t).mpr (by omega)
      exact hnot n hn
    constructor
    · intro p hp
      rcases List.mem_append.mp hp with hp1 | hp2
      · have hpt : p.1 ≠ t := by
          intro hcon
          refine hnot p.2 ?_
          rw [← hcon]
          exact hp1
        dsimp only
        rw [if_neg hpt]
        exact hval p hp1
      · rw [List.mem_singleton] at hp2
        subst hp2
        simp [hft]
    · intro w
      constructor
      · rintro ⟨n, hn⟩
        rcases List.mem_append.mp hn with h1 | h2
        · have h0 : 0 < f w := (hkey w).mp ⟨n, h1⟩
          dsimp only
          split <;> omega
        · rw [List.mem_singleton, Prod.mk.injEq] at h2
          obtain ⟨rfl, rfl⟩ := h2
          simp
      · intro h0
        by_cases hwt : w = t
        · subst hwt
          exact ⟨1, List.mem_append.mpr (Or.inr (List.mem_singleton.mpr rfl))⟩
        · simp only [if_neg hwt] at h0
          obtain ⟨n, hn⟩ := (hkey w).mpr h0
          exact ⟨n, List.mem_append.mpr (Or.inl hn)⟩

theorem foldl_bump_counts (ts : List String) :
    ∀ (L : List (String × ℕ)) (f : String → ℕ),
    (∀ p ∈ L, p.2 = f p.1) → (∀ w, (∃ n, (w, n) ∈ L) ↔ 0 < f w) →
    (∀ p ∈ ts.foldl bump L, p.2 = f p.1 + ts.count p.1) ∧
    (∀ w, (∃ n, (w, n) ∈ ts.foldl bump L) ↔ 0 < f w + ts.count w) := by
  induction ts with
  | nil =>
    intro L f hval hkey
    constructor
    · intro p hp
      simpa using hval p hp
    · intro w
      simpa using hkey w
  | cons t ts ih =>
    intro L f hval hkey
    simp only [List.foldl_cons]
    obtain ⟨h1, h2⟩ := bump_counts L t f hval hkey
    obtain ⟨ih1, ih2⟩ := ih (bump L t) (fun w => if w = t then f w + 1 else f w) h1 h2
    constructor
    · intro p hp
      rw [ih1 p hp]
      by_cases hpt : p.1 = t
      · rw [if_pos hpt, hpt, List.count_cons_self]
        omega
      · rw [if_neg hpt, List.count_cons_of_ne hpt]
    · intro w
      rw [ih2 w]
      by_cases hwt : w = t
      · subst hwt
        rw [if_pos rfl, List.count_cons_self]
        omega
      · rw [if_neg hwt, List.count_cons_of_ne hwt]

theorem foldl_bump_flatMap (cs : List (List String × List (List ℕ))) :
    ∀ init, cs.foldl (fun counts c => c.1.foldl bump counts) init =
      (cs.flatMap (fun c => c.1)).foldl bump init := by
  induction cs with
  | nil =>
    intro init
    rfl
  | cons c cs ih =>
    intro init
    rw [List.foldl_cons, ih, List.flatMap_cons, List.foldl_append]

/-- The `variable_constraint_count` dictionary records, for each variable
that occurs in some constraint, exactly its number of occurrences over all
constraint variable lists, and has a key for exactly those variables. -/
theorem constraintCounts_spec (cs : List (List String × List (List ℕ))) :
    (∀ p ∈ constraintCounts cs, p.2 = (cs.flatMap (fun c => c.1)).count p.1) ∧
    (∀ w, (∃ n, (w, n) ∈ constraintCounts cs) ↔
      0 < (cs.flatMap (fun c => c.1)).count w) := by
  have he : constraintCounts cs = (cs.flatMap (fun c => c.1)).foldl bump [] :=
    foldl_bump_flatMap cs []
  rw [he]
  have h := foldl_bump_counts (cs.flatMap fun c => c.1) [] (fun _ => 0)
    (by simp) (by simp)
  constructor
  · intro p hp
    simpa using h.1 p hp
  · intro w
    simpa using h.2 w

theorem count_flatMap_eq_mentioning (cs : List (List String × List (List ℕ)))
    (hnd : ∀ c ∈ cs, c.1.Nodup) (w : String) :
    (cs.flatMap (fun c => c.1)).count w = constraintsMentioning cs w := by
  induction cs with
  | nil => rfl
  | cons c cs ih =>
    rw [List.flatMap_cons, List.count_append,
      ih (fun c2 hc2 => hnd c2 (List.mem_cons_of_mem c hc2))]
    unfold constraintsMentioning
    rw [List.filter_cons]
    by_cases hw : w ∈ c.1
    · rw [if_pos (by simpa using hw), List.length_cons]
      have h1 : c.1.count w = 1 :=
        List.count_eq_one_of_mem (hnd c (List.mem_cons_self c cs)) hw
      rw [h1]
      omega
    · rw [if_neg (by simpa using hw)]
      have h1 : c.1.count w = 0 := List.count_eq_zero.mpr hw
      rw [h1]
      omega

/-- C2 counterexample, refuting both directions of the claimed equivalence.
First: with `k = 0` the constraint-count dictionary is empty — no variable
appears in more than `R = 1` constraints — yet construction does not
succeed: `partition_size = len(variables) // k` raises `ZeroDivisionError`
before the degree check ever runs. Second: a constraint listing `v1` twice
makes construction fail with the degree-bound `ValueError` naming count `2`,
although `v1` appears in only `1 ≤ R` constraint — the dictionary counts one
increment per list occurrence, not per constraint, so construction can fail
with a validation error although no variable appears in more than `R`
constraints (and the count it names is not the constraint count). -/
theorem spec_C2_counterexample :
    (constraintCounts ([] : List (List String × List (List ℕ))) = [] ∧
      mkCSP 1 0 [] [] = Except.error ConstructError.zeroDivision) ∧
    (mkCSP 1 1 ["v1"] [(["v1", "v1"], [])] =
        Except.error (ConstructError.degreeBound "v1" 2) ∧
      constraintsMentioning [(["v1", "v1"], [])] "v1" = 1) :=
  ⟨⟨rfl, rfl⟩, rfl, rfl⟩

/-- C2 (amended): provided `k ≥ 1` (for `k = 0` construction fails with a
division error regardless of the degree bound), construction fails with a
validation error naming an offending variable together with its occurrence
count if and only if some variable has more than `R` occurrences across the
constraints' variable lists, where a variable listed twice in one constraint
counts twice; when no variable's occurrence count exceeds `R`, construction
succeeds. -/
theorem spec_C2_amended (R k : ℕ) (vars : List String)
    (cs : List (List String × List (List ℕ))) (hk : 1 ≤ k) :
    ((∃ v c2, mkCSP R k vars cs = Except.error (ConstructError.degreeBound v c2) ∧
        c2 = occurrenceCount cs v ∧ R < c2) ↔
      ∃ v, R < occurrenceCount cs v) ∧
    ((∀ v, occurrenceCount cs v ≤ R) →
      mkCSP R k vars cs = Except.ok ⟨R, k, vars, cs⟩) := by
  obtain ⟨hval, hkey⟩ := constraintCounts_spec cs
  unfold mkCSP
  rw [if_neg (by omega : ¬ k = 0)]
  constructor
  · constructor
    · rintro ⟨v, c2, -, hc2, hRc⟩
      exact ⟨v, hc2 ▸ hRc⟩
    · rintro ⟨v, hv⟩
      have hv2 : R < (cs.flatMap (fun c => c.1)).count v := hv
      obtain ⟨n, hn⟩ := (hkey v).mpr (by omega)
      have hnval : n = (cs.flatMap (fun c => c.1)).count v := hval (v, n) hn
      have hsome : ((constraintCounts cs).find?
          (fun p => decide (R < p.2))).isSome :=
        List.find?_isSome.mpr ⟨(v, n), hn, by rw [hnval]; simpa using hv2⟩
      obtain ⟨p, hp⟩ := Option.isSome_iff_exists.mp hsome
      refine ⟨p.1, p.2, ?_, ?_, ?_⟩
      · rw [hp]
      · exact hval p (List.mem_of_find?_eq_some hp)
      · simpa using List.find?_some hp
  · intro hall
    have hnone : (constraintCounts cs).find? (fun p => decide (R < p.2)) = none := by
      rw [List.find?_eq_none]
      intro p hp
      have h1 := hval p hp
      have h2 : (cs.flatMap (fun c => c.1)).count p.1 ≤ R := hall p.1
      simp only [decide_eq_true_eq]
      omega
    rw [hnone]

theorem spec_C2_witness :
    mkCSP 1 1 ["v1"] [] = Except.ok ⟨1, 1, ["v1"], []⟩ :=
  (spec_C2_amended 1 1 ["v1"] [] (by decide)).2 (fun v => Nat.zero_le 1)
